import Mathlib

/-!
Verification development for the spanda dataframe library (guyd1995/spanda).

The repository wraps a columnar substrate (pandas) with Spark-style
dataframe operations.  The files `spanda/core/__init__.py` (selection,
grouping, rollup, cube, aggregation) and `spanda/sql/functions.py`
(column / aggregate / window function constructors) are embedded below.
The module `spanda/sql/column.py` (the `Column`, `AggColumn` and
`_SpecialSpandaColumn` classes) is not part of the sources at hand, so the
small fragment of it that the properties need is modelled from the spec
and marked as such in the doc comments.

Cells are nullable values (`Option α`); a table is an ordered list of
column names together with rows carrying a stable row identity, following
the data model of the spec (section 3).  Claim theorems are stated over
`Table Int`.
-/

namespace Spanda

abbrev RowId := Nat

/-- Tabular batch: ordered column names plus rows, each row a stable row id
with one nullable cell per column (spec section 3, "Table"). -/
structure Table (α : Type) where
  cols : List String
  rows : List (RowId × List (Option α))
deriving DecidableEq, Repr

/-- Cell lookup by column name: position of the name in the column list,
then that position in the row's cells.  Absent names give null. -/
def cellOf {α : Type} (cols : List String) (cells : List (Option α)) (c : String) : Option α :=
  match cols.indexOf? c with
  | some i => cells.getD i none
  | none => none

/-- Row selection by row id (`df.iloc[grp_idxs]` of
`GroupedDataFrameWrapper.agg`): keeps the requested rows in the requested
order. -/
def subTable {α : Type} (t : Table α) (ids : List RowId) : Table α :=
  ⟨t.cols, ids.filterMap (fun i => t.rows.find? (fun r => r.1 == i))⟩

/-- Well-formed table: no duplicate column names, no duplicate row ids, and
every row has one cell per column (spec section 3: stable row identity,
equal-length columns). -/
def Table.WF {α : Type} (t : Table α) : Prop :=
  t.cols.Nodup ∧ (t.rows.map Prod.fst).Nodup ∧ ∀ r ∈ t.rows, r.2.length = t.cols.length

/-- Modelled from the spec: the fragment of the `Column` expression algebra
(`spanda/sql/column.py`, not among the sources) that the claims exercise: a
base column reference (`col(name)`) and `alias`, which renames without
changing the computation (spec section 4.1). -/
inductive Expr where
  | colRef (n : String)
  | aliasE (e : Expr) (n : String)
deriving DecidableEq, Repr

/-- Output name of an expression (`Column._name`). -/
def Expr.name : Expr → String
  | .colRef n => n
  | .aliasE _ n => n

/-- Modelled from the spec: deferred evaluation `Column._apply` of
`spanda/sql/column.py` (spec section 3, "Expression"): a column reference
returns the named column's series, failing when the name is absent
(`UnknownColumn`); `alias` evaluates identically to its child. -/
def Expr.eval? {α : Type} : Expr → Table α → Option (List (Option α))
  | .colRef n, t =>
    if n ∈ t.cols then some (t.rows.map (fun r => cellOf t.cols r.2 n)) else none
  | .aliasE e _, t => e.eval? t

/-- Column assignment (`df.assign(**{name: series})`): replace the column in
place when the name exists, otherwise append it on the right. -/
def assignCol {α : Type} (t : Table α) (n : String) (vs : List (Option α)) : Table α :=
  if n ∈ t.cols then
    ⟨t.cols, (t.rows.zip vs).map (fun p =>
      (p.1.1, match t.cols.indexOf? n with
              | some i => p.1.2.set i p.2
              | none => p.1.2))⟩
  else
    ⟨t.cols ++ [n], (t.rows.zip vs).map (fun p => (p.1.1, p.1.2 ++ [p.2]))⟩

/-- Column projection `df[col_names]` closing `DataFrameWrapper.select`:
keeps the named columns in the given order (a name may appear several
times); a missing name raises. -/
def restrictCols {α : Type} (t : Table α) (ns : List String) : Except String (Table α) :=
  if ns.all (fun n => decide (n ∈ t.cols)) then
    .ok ⟨ns, t.rows.map (fun r => (r.1, ns.map (cellOf t.cols r.2)))⟩
  else .error "KeyError"

/-- Modelled from the spec: a special (cardinality-changing) column of
`spanda/sql/column.py` with its three evaluation phases (spec section 4.3).
In the source the postprocess step is a static dispatch on
`_transformation_type`; here each column carries its phase functions
directly, `μ` being the metadata type produced by preprocess. -/
structure SpecialCol (α μ : Type) where
  name : String
  pre : Table α → μ
  app : Table α → μ → List (Option α)
  post : Table α → μ → List String → Table α

/-- One entry of a `select(...)` argument list: an ordinary expression or a
special column. -/
inductive SelCol (α μ : Type) where
  | ord (e : Expr)
  | special (s : SpecialCol α μ)

/-- Output name of a selection entry. -/
def selCName {α μ : Type} : SelCol α μ → String
  | .ord e => e.name
  | .special s => s.name

/-- Insert-or-replace on an association list (`dict.update` with one key). -/
def updateAssoc {μ : Type} (k : String) (v : μ) : List (String × μ) → List (String × μ)
  | [] => [(k, v)]
  | p :: rest => if p.1 = k then (k, v) :: rest else p :: updateAssoc k v rest

/-- Lookup in the metadata dictionary (`metadata[col._name]`); the default
is unreachable because `select` populates every special column's entry
first. -/
def lookupMd {μ : Type} [Inhabited μ] (m : List (String × μ)) (k : String) : μ :=
  ((m.find? (fun p => p.1 == k)).map Prod.snd).getD default

/-- First loop of `DataFrameWrapper.select` (core lines 157-159): run
preprocess for every special column against the original table, keyed by
column name. -/
def buildMd {α μ : Type} (t : Table α) (cols : List (SelCol α μ)) : List (String × μ) :=
  cols.foldl (fun m c =>
    match c with
    | .special s => updateAssoc s.name (s.pre t) m
    | .ord _ => m) []

/-- Second loop of `DataFrameWrapper.select` (core lines 160-172): walk the
selection in caller order over the accumulating table, assigning each
ordinary expression's evaluation and each special column's apply-phase
series, collecting the output names and the special columns for the
postprocess pass. -/
def selLoop {α μ : Type} [Inhabited μ] (md : List (String × μ)) :
    Table α → List (SelCol α μ) →
    Except String (Table α × List String × List (String × (Table α → μ → List String → Table α)))
  | df, [] => .ok (df, [], [])
  | df, c :: rest =>
    match c with
    | .ord e =>
      match e.eval? df with
      | none => .error "UnknownColumn"
      | some vs =>
        (selLoop md (assignCol df e.name vs) rest).map (fun r => (r.1, e.name :: r.2.1, r.2.2))
    | .special s =>
      (selLoop md (assignCol df s.name (s.app df (lookupMd md s.name))) rest).map
        (fun r => (r.1, s.name :: r.2.1, (s.name, s.post) :: r.2.2))

/-- `DataFrameWrapper.select` (core lines 148-180): preprocess pass, then
the in-order assignment loop, then one postprocess pass over the special
columns, finally the projection `df[col_names]`. -/
def select {α μ : Type} [Inhabited μ] (t : Table α) (cols : List (SelCol α μ)) :
    Except String (Table α) :=
  let md := buildMd t cols
  match selLoop md t cols with
  | .error e => .error e
  | .ok (df, names, specials) =>
    restrictCols (specials.foldl (fun d p => p.2 d (lookupMd md p.1) names) df) names

/-- Claim C6's wording of `select`, written for comparison with the source
embedding: all ordinary expressions are evaluated first, each against the
ORIGINAL table, then preprocess/apply runs for the special columns, then
one combined postprocess pass, and the output keeps caller order. -/
def selectSpec {α μ : Type} [Inhabited μ] (t : Table α) (cols : List (SelCol α μ)) :
    Except String (Table α) :=
  let ordsEval : Except String (List (String × List (Option α))) :=
    cols.foldr (fun c acc =>
      match c with
      | .ord e =>
        match e.eval? t, acc with
        | none, _ => .error "UnknownColumn"
        | some vs, .ok l => .ok ((e.name, vs) :: l)
        | some _, .error m => .error m
      | .special _ => acc) (.ok [])
  match ordsEval with
  | .error m => .error m
  | .ok ords =>
    let df1 := ords.foldl (fun d p => assignCol d p.1 p.2) t
    let md := buildMd t cols
    let df2 := cols.foldl (fun d c =>
      match c with
      | .special s => assignCol d s.name (s.app d (lookupMd md s.name))
      | .ord _ => d) df1
    let names := cols.map selCName
    let df3 := cols.foldl (fun d c =>
      match c with
      | .special s => s.post d (lookupMd md s.name) names
      | .ord _ => d) df2
    restrictCols df3 names

/-- Modelled from the spec: `AggColumn` of `spanda/sql/column.py` (spec
section 3, "AggregateExpression"): a display name, a source expression and
a reduction taking the source's series restricted to one group to one
scalar.  Constructors in `spanda/sql/functions.py` instantiate it. -/
structure AggColumn (α : Type) where
  name : String
  origCol : Expr
  op : List (Option α) → Option α

/-- Modelled from the spec: `AggColumn.getName` renders the aggregate's
output column name, e.g. `SUM(v)` (spec section 8, concrete scenario). -/
def AggColumn.getName {α : Type} (a : AggColumn α) : String :=
  a.name ++ "(" ++ a.origCol.name ++ ")"

/-- Modelled from the spec: `AggColumn._apply(col, grp)` (spec section
4.2): evaluate the source expression on the group's rows and reduce;
`none` signals the evaluation failure (`UnknownColumn`) that the missing
column would raise. -/
def aggApply {α : Type} (a : AggColumn α) (t : Table α) : Option (Option α) :=
  (a.origCol.eval? t).map a.op

/-- Reduction of `sum(col)` (`functions.py` line 587, pandas `x.sum()`):
sum of the non-null entries. -/
def sumOp (s : List (Option Int)) : Option Int :=
  some (s.filterMap id).sum

/-- `sum(col(c))` of `functions.py` lines 582-587. -/
def sumA (c : String) : AggColumn Int := ⟨"SUM", .colRef c, sumOp⟩

/-- Reduction of `last(col)` (`functions.py` line 544, `x.iloc[-1]`): the
last entry of the group's series. -/
def lastOp (s : List (Option Int)) : Option Int :=
  (s.getLast?).getD none

/-- `last(col(c))` of `functions.py` lines 539-544. -/
def lastA (c : String) : AggColumn Int := ⟨"LAST", .colRef c, lastOp⟩

/-- Reduction of `count(col)` (`functions.py` line 554, `op=len`): the
length of the group's series, never looking at the values. -/
def countOp (s : List (Option Int)) : Option Int :=
  some (s.length : Int)

/-- `count(col(c))` of `functions.py` lines 547-554. -/
def countA (c : String) : AggColumn Int := ⟨"COUNT", .colRef c, countOp⟩

/-- `new_groups[name] += ids` on an insertion-ordered mapping (Python
`defaultdict(list)`): append the ids to the entry with that key, creating
the entry at the end when the key is new. -/
def addGroup {κ : Type} [DecidableEq κ] (k : κ) (is : List RowId) :
    List (κ × List RowId) → List (κ × List RowId)
  | [] => [(k, is)]
  | g :: rest => if g.1 = k then (g.1, g.2 ++ is) :: rest else g :: addGroup k is rest

/-- Fold a job list of (key, row ids) pairs into a group mapping with
`addGroup`. -/
def foldAdd {κ : Type} [DecidableEq κ] (gs jobs : List (κ × List RowId)) :
    List (κ × List RowId) :=
  jobs.foldl (fun a j => addGroup j.1 j.2 a) gs

/-- Row-id list of a key in a group mapping (empty when absent). -/
def lookupG {κ : Type} [DecidableEq κ] (gs : List (κ × List RowId)) (k : κ) : List RowId :=
  ((gs.find? (fun g => decide (g.1 = k))).map Prod.snd).getD []

/-- Key tuple of a row for the given key columns. -/
def keyOf {α : Type} (t : Table α) (ks : List String) (cells : List (Option α)) :
    List (Option α) :=
  ks.map (cellOf t.cols cells)

/-- Modelled from the spec: the substrate's `Table.groupIndices`
(`df.groupby(cols).indices`, collaborator contract of spec section 6):
maps each key tuple to the ids of its rows, rows in table order inside a
group and groups in first-encounter order (spec section 8, concrete
scenario). -/
def groupIndices {α : Type} [DecidableEq α] (t : Table α) (ks : List String) :
    List (List (Option α) × List RowId) :=
  foldAdd [] (t.rows.map (fun r => (keyOf t ks r.2, [r.1])))

/-- `GroupedDataFrameWrapper` (core lines 288-292): source table, key
names, and the group mapping.  Key-tuple entries are `Option (Option α)`:
the outer `none` is the wildcard sentinel that rollup/cube insert, kept
distinguishable from null data as the spec requires (section 3). -/
structure GroupedTable (α : Type) where
  df : Table α
  keys : List String
  groups : List (List (Option (Option α)) × List RowId)

/-- `DataFrameWrapper.groupBy` (core lines 217-224): group row ids by the
exact key tuple. -/
def groupByW {α : Type} [DecidableEq α] (t : Table α) (ks : List String) : GroupedTable α :=
  ⟨t, ks, (groupIndices t ks).map (fun g => (g.1.map some, g.2))⟩

/-- Key tuple of rollup level `L` (core line 242, `name[:-level] +
(None,)*level`): the last `L` positions replaced by the sentinel. -/
def rollupName {α : Type} (name : List (Option α)) (L : Nat) : List (Option (Option α)) :=
  (name.take (name.length - L)).map some ++ List.replicate L none

/-- Group mapping of `DataFrameWrapper.rollup` (core lines 238-245): for
each level `0..k` merge the row-id lists of original key tuples that
collide after suffix-wildcarding. -/
def rollupGroups {α : Type} [DecidableEq α]
    (orig : List (List (Option α) × List RowId)) (k : Nat) :
    List (List (Option (Option α)) × List RowId) :=
  (List.range (k + 1)).foldl
    (fun acc L => orig.foldl (fun a g => addGroup (rollupName g.1 L) g.2 a) acc) []

/-- `DataFrameWrapper.rollup` (core lines 232-246). -/
def rollupW {α : Type} [DecidableEq α] (t : Table α) (ks : List String) : GroupedTable α :=
  ⟨t, ks, rollupGroups (groupIndices t ks) ks.length⟩

/-- Key tuple of cube combination `comb` (core line 258): position `i`
keeps the original entry when bit `i` of `comb` is clear and becomes the
sentinel when it is set. -/
def cubeName {α : Type} (name : List (Option α)) (comb k : Nat) : List (Option (Option α)) :=
  (List.range k).map (fun i => if (comb >>> i) % 2 = 0 then some (name.getD i none) else none)

/-- Group mapping of `DataFrameWrapper.cube` (core lines 254-259): for
every `comb < 2^k` merge the row-id lists of original key tuples that
collide after wildcarding the selected positions. -/
def cubeGroups {α : Type} [DecidableEq α]
    (orig : List (List (Option α) × List RowId)) (k : Nat) :
    List (List (Option (Option α)) × List RowId) :=
  (List.range (2 ^ k)).foldl
    (fun acc comb => orig.foldl (fun a g => addGroup (cubeName g.1 comb k) g.2 a) acc) []

/-- `DataFrameWrapper.cube` (core lines 248-260). -/
def cubeW {α : Type} [DecidableEq α] (t : Table α) (ks : List String) : GroupedTable α :=
  ⟨t, ks, cubeGroups (groupIndices t ks) ks.length⟩

/-- Values of one key column of the aggregate output (core line 304,
`list(map(lambda x: x[i], self._groups.keys()))`); the sentinel flattens
to null exactly as Python's `None` does. -/
def keyColumn {α : Type} (groups : List (List (Option (Option α)) × List RowId)) (i : Nat) :
    List (Option α) :=
  groups.map (fun g => (g.1.getD i none).join)

/-- Message of the assertion at core line 303. -/
def dupKeyMsg : String := "there are keys with the same name"

/-- Message of the `DuplicateName` assertion at core line 308. -/
def dupNameMsg : String := "cannot have duplicate names in aggregate dataframe"

/-- First loop of `GroupedDataFrameWrapper.agg` (core lines 302-304): one
output column per key name, failing on a repeated key name. -/
def buildKeyDict {α : Type} (groups : List (List (Option (Option α)) × List RowId)) :
    List String → Nat → List (String × List (Option α)) →
    Except String (List (String × List (Option α)))
  | [], _, d => .ok d
  | k :: rest, i, d =>
    if k ∈ d.map Prod.fst then .error dupKeyMsg
    else buildKeyDict groups rest (i + 1) (d ++ [(k, keyColumn groups i)])

/-- Inner loop of `GroupedDataFrameWrapper.agg` (core lines 310-312):
evaluate one aggregate on every group in mapping order.  The second
component is the evaluation trace: one entry per `AggColumn._apply` call
actually made, recorded so that theorems can observe which aggregates were
evaluated before a failure. -/
def applyAggManyT {α : Type} (a : AggColumn α) (df : Table α) :
    List (List (Option (Option α)) × List RowId) →
    Except String (List (Option α)) × List String
  | [] => (.ok [], [])
  | g :: gs =>
    match aggApply a (subTable df g.2) with
    | none => (.error "UnknownColumn", [a.getName])
    | some v =>
      let r := applyAggManyT a df gs
      (r.1.map (fun vs => v :: vs), a.getName :: r.2)

/-- Second loop of `GroupedDataFrameWrapper.agg` (core lines 306-312): for
each aggregate, first the duplicate-name assertion against the dictionary
built so far, then the evaluation over all groups.  Carries the
evaluation trace. -/
def aggColsFoldT {α : Type} (df : Table α)
    (groups : List (List (Option (Option α)) × List RowId))
    (d : List (String × List (Option α))) :
    List (AggColumn α) →
    Except String (List (String × List (Option α))) × List String
  | [] => (.ok d, [])
  | a :: rest =>
    if a.getName ∈ d.map Prod.fst then (.error dupNameMsg, [])
    else
      match applyAggManyT a df groups with
      | (.error e, tr) => (.error e, tr)
      | (.ok vs, tr) =>
        let r := aggColsFoldT df groups (d ++ [(a.getName, vs)]) rest
        (r.1, tr ++ r.2)

/-- `pd.DataFrame(df_dict)` (core line 313): assemble the column
dictionary into a table, columns in insertion order, rows numbered from
zero. -/
def tableOfDict {α : Type} (n : Nat) (d : List (String × List (Option α))) : Table α :=
  ⟨d.map Prod.fst, (List.range n).map (fun j => (j, d.map (fun c => c.2.getD j none)))⟩

/-- `GroupedDataFrameWrapper.agg` (core lines 294-313) with its evaluation
trace. -/
def aggT {α : Type} (g : GroupedTable α) (cols : List (AggColumn α)) :
    Except String (Table α) × List String :=
  match buildKeyDict g.groups g.keys 0 [] with
  | .error e => (.error e, [])
  | .ok d0 =>
    match aggColsFoldT g.df g.groups d0 cols with
    | (.error e, tr) => (.error e, tr)
    | (.ok d, tr) => (.ok (tableOfDict g.groups.length d), tr)

/-- `GroupedDataFrameWrapper.agg`: the resulting table. -/
def agg {α : Type} (g : GroupedTable α) (cols : List (AggColumn α)) :
    Except String (Table α) :=
  (aggT g cols).1

/-- `DataFrameWrapper.agg` (core lines 103-108): aggregate the whole table
as one synthetic group holding every row id in table order. -/
def aggAll {α : Type} (t : Table α) (cols : List (AggColumn α)) :
    Except String (Table α) :=
  agg ⟨t, [], [([], t.rows.map Prod.fst)]⟩ cols

/-- Positional reducer of `lead(col, count)` (`functions.py` line 605):
the series value of the partition row at `pos + count` when in bounds,
else null.  `count` is taken nonnegative as in every library use. -/
def leadOp {α : Type} (s : RowId → Option α) (grp : List RowId) (pos count : Nat) : Option α :=
  if pos + count < grp.length then s (grp.getD (pos + count) 0) else none

/-- Positional reducer of `lag(col, count)` (`functions.py` line 614): the
series value of the partition row at `pos - count` when that offset is
nonnegative, else null. -/
def lagOp {α : Type} (s : RowId → Option α) (grp : List RowId) (pos count : Nat) : Option α :=
  if count ≤ pos then s (grp.getD (pos - count) 0) else none

/-- Positional reducer of `rank()` (`functions.py` line 631,
`list(col.loc[grp]).index(col[grp[pos]])`): the first index of the row's
value in the partition's value list, taken in partition order. -/
def rankOp {γ : Type} [DecidableEq γ] (s : RowId → γ) (grp : List RowId) (pos : Nat) : Nat :=
  (grp.map s).indexOf (s (grp.getD pos 0))

/-- Sorted insertion, ascending. -/
def insertAsc (x : Int) : List Int → List Int
  | [] => [x]
  | y :: ys => if x ≤ y then x :: y :: ys else y :: insertAsc x ys

/-- Insertion sort, ascending. -/
def sortAsc : List Int → List Int
  | [] => []
  | x :: xs => insertAsc x (sortAsc xs)

/-- Claim C8's wording of `rank()`: the 0-based rank of the value among
the partition's values sorted ascending, ties broken by first
occurrence. -/
def rankSpec (v : Int) (vals : List Int) : Nat :=
  (sortAsc vals).indexOf v

/-- Wildcard pattern of a key tuple: which positions hold a concrete
value (`true`) rather than the sentinel (`false`).  A grouping
granularity is one such pattern. -/
def keyPat {β : Type} (k : List (Option β)) : List Bool :=
  k.map Option.isSome

/-- Number of distinct grouping granularities of a group mapping. -/
def granCount {β : Type} [DecidableEq β] (gs : List (List (Option β) × List RowId)) : Nat :=
  ((gs.map (fun g => keyPat g.1)).dedup).length

/-- Wildcard pattern of cube combination `comb` over `k` keys. -/
def patFn (c k : Nat) : List Bool :=
  (List.range k).map (fun i => decide ((c >>> i) % 2 = 0))

/-- Combination number of a wildcard pattern (left inverse of `patFn`). -/
def combOf : List Bool → Nat
  | [] => 0
  | b :: rest => (if b then 0 else 1) + 2 * combOf rest

/-- Freshness of the aggregate output names of an `agg` call against the
already-taken dictionary keys: no aggregate name repeats an earlier name
or a taken key. -/
def goodNamesB {α : Type} (dk : List String) : List (AggColumn α) → Bool
  | [] => true
  | a :: rest => !(decide (a.getName ∈ dk)) && goodNamesB (dk ++ [a.getName]) rest

/-- Two-column one-row table with `x = 1`, `z = 2`. -/
def t1c : Table Int := ⟨["x", "z"], [(0, [some 1, some 2])]⟩

/-- Selection `select(col("x").alias("y"), col("z").alias("y"))`. -/
def cols1c : List (SelCol Int Unit) :=
  [.ord (.aliasE (.colRef "x") "y"), .ord (.aliasE (.colRef "z") "y")]

/-- The spec's concrete scenario table `{id:[1,1,2], v:[10,20,5]}`. -/
def t2c : Table Int :=
  ⟨["id", "v"], [(0, [some 1, some 10]), (1, [some 1, some 20]), (2, [some 2, some 5])]⟩

/-- Table `{id:[1,2,1], v:[10,20,30]}`, whose rollup grand-total group
visits the rows in the order 0, 2, 1. -/
def t3c : Table Int :=
  ⟨["id", "v"], [(0, [some 1, some 10]), (1, [some 2, some 20]), (2, [some 1, some 30])]⟩

/-- A table with one column and no rows. -/
def tEmptyc : Table Int := ⟨["a"], []⟩

/-- One-column one-row table with `x = 1`. -/
def t6c : Table Int := ⟨["x"], [(0, [some 1])]⟩

/-- A special column whose three phases do as little as a special column
can: no metadata, a null series, postprocess the identity. -/
def sTriv : SpecialCol Int Unit :=
  ⟨"s", fun _ => (), fun df _ => df.rows.map (fun _ => none), fun d _ _ => d⟩

/-- Selection mixing two ordinary expressions (the second referencing the
name produced by the first) and one special column. -/
def cols6c : List (SelCol Int Unit) :=
  [.ord (.aliasE (.colRef "x") "y"), .ord (.colRef "y"), .special sTriv]

/-- A window series for the lead/lag witnesses: row id `i` holds `i + 5`. -/
def sWin : RowId → Option Int := fun i => some ((i : Int) + 5)

/-- A two-row series whose partition order is not ascending: value 3 at
row 0, value 1 at row 1. -/
def sRank : RowId → Int := fun i => if i = 0 then 3 else 1

/-- A series ascending in the row id, for the rank witness. -/
def sAsc : RowId → Int := fun i => (i : Int)

/-- One-column table with null and non-null cells, for the count
witness. -/
def t10c : Table Int := ⟨["v"], [(0, [none]), (1, [some 7]), (2, [none])]⟩

theorem foldAdd_nil {κ : Type} [DecidableEq κ] (gs : List (κ × List RowId)) :
    foldAdd gs [] = gs := rfl

theorem foldAdd_cons {κ : Type} [DecidableEq κ] (gs : List (κ × List RowId))
    (j : κ × List RowId) (jobs : List (κ × List RowId)) :
    foldAdd gs (j :: jobs) = foldAdd (addGroup j.1 j.2 gs) jobs := rfl

theorem foldAdd_append {κ : Type} [DecidableEq κ] (gs a b : List (κ × List RowId)) :
    foldAdd gs (a ++ b) = foldAdd (foldAdd gs a) b := by
  simp [foldAdd, List.foldl_append]

theorem mem_keys_addGroup {κ : Type} [DecidableEq κ] {k k' : κ} {is : List RowId}
    {gs : List (κ × List RowId)} :
    k' ∈ (addGroup k is gs).map Prod.fst ↔ k' = k ∨ k' ∈ gs.map Prod.fst := by
  induction gs with
  | nil => simp [addGroup]
  | cons g rest ih =>
    by_cases h : g.1 = k
    · subst h
      simp [addGroup]
    · simp [addGroup, h, ih]
      tauto

theorem nodup_keys_addGroup {κ : Type} [DecidableEq κ] {k : κ} {is : List RowId}
    {gs : List (κ × List RowId)} (hn : (gs.map Prod.fst).Nodup) :
    ((addGroup k is gs).map Prod.fst).Nodup := by
  induction gs with
  | nil => simp [addGroup]
  | cons g rest ih =>
    simp only [List.map_cons, List.nodup_cons] at hn
    by_cases h : g.1 = k
    · subst h
      simpa [addGroup] using hn
    · simp only [addGroup, if_neg h, List.map_cons, List.nodup_cons]
      exact ⟨fun hx => (mem_keys_addGroup.mp hx).elim (fun e => h e) hn.1, ih hn.2⟩

theorem mem_keys_foldAdd {κ : Type} [DecidableEq κ] {k' : κ}
    {gs jobs : List (κ × List RowId)} :
    k' ∈ (foldAdd gs jobs).map Prod.fst ↔ k' ∈ gs.map Prod.fst ∨ k' ∈ jobs.map Prod.fst := by
  induction jobs generalizing gs with
  | nil => simp [foldAdd]
  | cons j rest ih =>
    rw [foldAdd_cons, ih, mem_keys_addGroup]
    simp
    tauto

theorem nodup_keys_foldAdd {κ : Type} [DecidableEq κ]
    {gs jobs : List (κ × List RowId)} (hn : (gs.map Prod.fst).Nodup) :
    ((foldAdd gs jobs).map Prod.fst).Nodup := by
  induction jobs generalizing gs with
  | nil => exact hn
  | cons j rest ih => exact ih (nodup_keys_addGroup hn)

theorem lookupG_nil {κ : Type} [DecidableEq κ] (k' : κ) :
    lookupG ([] : List (κ × List RowId)) k' = [] := rfl

theorem lookupG_cons {κ : Type} [DecidableEq κ] (g : κ × List RowId)
    (rest : List (κ × List RowId)) (k' : κ) :
    lookupG (g :: rest) k' = if g.1 = k' then g.2 else lookupG rest k' := by
  by_cases h : g.1 = k'
  · simp [lookupG, List.find?_cons, h]
  · simp [lookupG, List.find?_cons, h]

theorem lookupG_addGroup {κ : Type} [DecidableEq κ] (k k' : κ) (is : List RowId)
    (gs : List (κ × List RowId)) :
    lookupG (addGroup k is gs) k' =
      if k' = k then lookupG gs k' ++ is else lookupG gs k' := by
  induction gs with
  | nil =>
    rw [show addGroup k is ([] : List (κ × List RowId)) = [(k, is)] from rfl, lookupG_cons]
    by_cases h : k' = k
    · simp [h, lookupG_nil]
    · rw [if_neg (fun e : k = k' => h e.symm), if_neg h]
  | cons g rest ih =>
    by_cases hg : g.1 = k
    · rw [show addGroup k is (g :: rest) = (g.1, g.2 ++ is) :: rest from by
        simp [addGroup, hg]]
      rw [lookupG_cons, lookupG_cons]
      by_cases h : k' = k
      · have hgk : g.1 = k' := by rw [hg, h]
        simp [hgk, h]
      · have hne : ¬g.1 = k' := fun e => h (e.symm.trans hg)
        simp [hne, h]
    · rw [show addGroup k is (g :: rest) = g :: addGroup k is rest from by
        simp [addGroup, hg]]
      rw [lookupG_cons, lookupG_cons]
      by_cases h : g.1 = k'
      · have : ¬k' = k := fun e => hg (h.trans e)
        simp [h, this]
      · simp [h, ih]

theorem lookupG_foldAdd {κ : Type} [DecidableEq κ] (k' : κ)
    (gs jobs : List (κ × List RowId)) :
    lookupG (foldAdd gs jobs) k' =
      lookupG gs k' ++ ((jobs.filter (fun j => decide (j.1 = k'))).map Prod.snd).flatten := by
  induction jobs generalizing gs with
  | nil => simp [foldAdd]
  | cons j rest ih =>
    rw [foldAdd_cons, ih, lookupG_addGroup]
    by_cases h : j.1 = k'
    · simp [List.filter_cons, h, if_pos h.symm, List.append_assoc]
    · simp [List.filter_cons, h, if_neg (fun e : k' = j.1 => h e.symm)]

theorem flatten_values_addGroup {κ : Type} [DecidableEq κ] (k : κ) (is : List RowId)
    (gs : List (κ × List RowId)) :
    (((addGroup k is gs).map Prod.snd).flatten).Perm ((gs.map Prod.snd).flatten ++ is) := by
  induction gs with
  | nil => simp [addGroup]
  | cons g rest ih =>
    by_cases h : g.1 = k
    · rw [show addGroup k is (g :: rest) = (g.1, g.2 ++ is) :: rest from by
        simp [addGroup, h]]
      simp only [List.map_cons, List.flatten_cons]
      rw [List.append_assoc, List.append_assoc]
      exact List.Perm.append_left g.2 List.perm_append_comm
    · rw [show addGroup k is (g :: rest) = g :: addGroup k is rest from by
        simp [addGroup, h]]
      simp only [List.map_cons, List.flatten_cons]
      rw [List.append_assoc]
      exact List.Perm.append_left g.2 ih

theorem flatten_values_foldAdd {κ : Type} [DecidableEq κ]
    (gs jobs : List (κ × List RowId)) :
    (((foldAdd gs jobs).map Prod.snd).flatten).Perm
      ((gs.map Prod.snd).flatten ++ (jobs.map Prod.snd).flatten) := by
  induction jobs generalizing gs with
  | nil => simp [foldAdd]
  | cons j rest ih =>
    rw [foldAdd_cons]
    refine ((ih _).trans ?_)
    refine (List.Perm.append_right _ (flatten_values_addGroup j.1 j.2 gs)).trans ?_
    rw [List.append_assoc]
    simp

theorem addGroup_ne_nil {κ : Type} [DecidableEq κ] (k : κ) (is : List RowId)
    (gs : List (κ × List RowId)) : addGroup k is gs ≠ [] := by
  cases gs with
  | nil => simp [addGroup]
  | cons g rest =>
    by_cases h : g.1 = k <;> simp [addGroup, h]

theorem foldAdd_ne_nil {κ : Type} [DecidableEq κ]
    {gs jobs : List (κ × List RowId)} (h : gs ≠ []) : foldAdd gs jobs ≠ [] := by
  induction jobs generalizing gs with
  | nil => exact h
  | cons j rest ih => exact ih (addGroup_ne_nil j.1 j.2 gs)

theorem foldAdd_nil_ne_nil {κ : Type} [DecidableEq κ]
    {jobs : List (κ × List RowId)} (h : jobs ≠ []) : foldAdd [] jobs ≠ [] := by
  cases jobs with
  | nil => exact absurd rfl h
  | cons j rest =>
    rw [foldAdd_cons]
    exact foldAdd_ne_nil (addGroup_ne_nil j.1 j.2 [])

theorem addGroup_of_not_mem {κ : Type} [DecidableEq κ] {k : κ} {is : List RowId}
    {gs : List (κ × List RowId)} (h : k ∉ gs.map Prod.fst) :
    addGroup k is gs = gs ++ [(k, is)] := by
  induction gs with
  | nil => simp [addGroup]
  | cons g rest ih =>
    simp only [List.map_cons, List.mem_cons, not_or] at h
    have hne : ¬g.1 = k := fun e => h.1 e.symm
    simp [addGroup, hne, ih h.2]

theorem foldAdd_fresh {κ : Type} [DecidableEq κ]
    {gs jobs : List (κ × List RowId)} (hn : (jobs.map Prod.fst).Nodup)
    (hd : ∀ x ∈ jobs.map Prod.fst, x ∉ gs.map Prod.fst) :
    foldAdd gs jobs = gs ++ jobs := by
  induction jobs generalizing gs with
  | nil => simp [foldAdd]
  | cons j rest ih =>
    simp only [List.map_cons, List.nodup_cons] at hn
    rw [foldAdd_cons, addGroup_of_not_mem (hd j.1 (by simp))]
    rw [ih hn.2 ?_]
    · simp
    · intro x hx
      simp only [List.map_append, List.mem_append, not_or]
      refine ⟨hd x (by simp [hx]), ?_⟩
      simp only [List.map_cons, List.map_nil, List.mem_singleton]
      exact fun e => hn.1 (e ▸ hx)

theorem filter_addGroup_neg {κ : Type} [DecidableEq κ] {p : κ → Bool} {k : κ}
    {is : List RowId} {gs : List (κ × List RowId)} (h : p k = false) :
    (addGroup k is gs).filter (fun g => p g.1) = gs.filter (fun g => p g.1) := by
  induction gs with
  | nil => simp [addGroup, List.filter, h]
  | cons g rest ih =>
    by_cases hg : g.1 = k
    · subst hg
      simp [addGroup, List.filter, h]
    · simp only [addGroup, if_neg hg, List.filter]
      rw [ih]

theorem filter_foldAdd_neg {κ : Type} [DecidableEq κ] (p : κ → Bool)
    {gs jobs : List (κ × List RowId)} (h : ∀ j ∈ jobs, p j.1 = false) :
    (foldAdd gs jobs).filter (fun g => p g.1) = gs.filter (fun g => p g.1) := by
  induction jobs generalizing gs with
  | nil => simp [foldAdd]
  | cons j rest ih =>
    rw [foldAdd_cons, ih (fun x hx => h x (by simp [hx]))]
    exact filter_addGroup_neg (h j (by simp))

theorem nestedFold_eq_foldAdd {κ κ' : Type} [DecidableEq κ']
    (orig : List (κ × List RowId)) (f : κ × List RowId → Nat → κ') (combs : List Nat)
    (gs : List (κ' × List RowId)) :
    combs.foldl (fun acc c => orig.foldl (fun a g => addGroup (f g c) g.2 a) acc) gs
      = foldAdd gs (combs.flatMap (fun c => orig.map (fun g => (f g c, g.2)))) := by
  induction combs generalizing gs with
  | nil => simp [foldAdd]
  | cons c rest ih =>
    rw [List.foldl_cons, List.flatMap_cons, foldAdd_append, ih]
    congr 1
    simp [foldAdd, List.foldl_map]

theorem rollupGroups_eq {α : Type} [DecidableEq α]
    (orig : List (List (Option α) × List RowId)) (k : Nat) :
    rollupGroups orig k =
      foldAdd [] ((List.range (k + 1)).flatMap
        (fun L => orig.map (fun g => (rollupName g.1 L, g.2)))) :=
  nestedFold_eq_foldAdd orig (fun g L => rollupName g.1 L) (List.range (k + 1)) []

theorem cubeGroups_eq {α : Type} [DecidableEq α]
    (orig : List (List (Option α) × List RowId)) (k : Nat) :
    cubeGroups orig k =
      foldAdd [] ((List.range (2 ^ k)).flatMap
        (fun comb => orig.map (fun g => (cubeName g.1 comb k, g.2)))) :=
  nestedFold_eq_foldAdd orig (fun g comb => cubeName g.1 comb k) (List.range (2 ^ k)) []

theorem patFn_succ (c k : Nat) :
    patFn c (k + 1) = decide (c % 2 = 0) :: patFn (c >>> 1) k := by
  unfold patFn
  rw [List.range_succ_eq_map, List.map_cons, List.map_map]
  congr 1
  apply List.map_congr_left
  intro i _
  have h : c >>> (i + 1) = (c >>> 1) >>> i := by
    rw [Nat.add_comm, Nat.shiftRight_add]
  simp [Function.comp, h]

theorem combOf_lt (p : List Bool) : combOf p < 2 ^ p.length := by
  induction p with
  | nil => simp [combOf]
  | cons b rest ih =>
    simp only [combOf, List.length_cons, pow_succ]
    split <;> omega

theorem combOf_patFn {k c : Nat} (h : c < 2 ^ k) : combOf (patFn c k) = c := by
  induction k generalizing c with
  | zero =>
    have hc : c = 0 := by simpa using h
    subst hc
    rfl
  | succ k ih =>
    rw [patFn_succ]
    simp only [combOf]
    have h2 : c >>> 1 = c / 2 := Nat.shiftRight_one c
    have h3 : c / 2 < 2 ^ k := by
      rw [pow_succ] at h
      omega
    rw [h2, ih h3]
    by_cases hb : c % 2 = 0
    · simp [hb]
      omega
    · simp [hb]
      omega

theorem patFn_combOf (p : List Bool) : patFn (combOf p) p.length = p := by
  induction p with
  | nil => rfl
  | cons b rest ih =>
    rw [List.length_cons, patFn_succ]
    have hmod : combOf (b :: rest) % 2 = if b then 0 else 1 := by
      simp only [combOf]
      split <;> omega
    have hdiv : combOf (b :: rest) >>> 1 = combOf rest := by
      rw [Nat.shiftRight_one]
      simp only [combOf]
      split <;> omega
    rw [hdiv, ih]
    congr 1
    rw [hmod]
    cases b <;> simp

theorem combOf_replicate_true (k : Nat) : combOf (List.replicate k true) = 0 := by
  induction k with
  | zero => rfl
  | succ k ih => simp [List.replicate_succ, combOf, ih]

theorem patFn_comb_zero (k : Nat) : patFn 0 k = List.replicate k true := by
  induction k with
  | zero => rfl
  | succ k ih =>
    rw [patFn_succ, Nat.zero_shiftRight, ih, List.replicate_succ]
    simp

theorem keyPat_cubeName {α : Type} (name : List (Option α)) (comb k : Nat) :
    keyPat (cubeName name comb k) = patFn comb k := by
  unfold keyPat cubeName patFn
  rw [List.map_map]
  apply List.map_congr_left
  intro i _
  by_cases h : (comb >>> i) % 2 = 0 <;> simp [h, Function.comp]

theorem map_isSome_map_some {α : Type} (l : List (Option α)) :
    (l.map some).map Option.isSome = List.replicate l.length true := by
  induction l with
  | nil => rfl
  | cons a rest ih => simp [List.replicate_succ, ih]

theorem keyPat_map_some {α : Type} (l : List (Option α)) :
    keyPat (l.map some) = List.replicate l.length true :=
  map_isSome_map_some l

theorem keyPat_replicate_none {α : Type} (k : Nat) :
    keyPat (List.replicate k (none : Option α)) = List.replicate k false := by
  unfold keyPat
  rw [List.map_replicate]
  simp

theorem keyPat_rollupName {α : Type} {name : List (Option α)} {k : Nat} (L : Nat)
    (hlen : name.length = k) :
    keyPat (rollupName name L) = List.replicate (k - L) true ++ List.replicate L false := by
  unfold keyPat rollupName
  rw [List.map_append, map_isSome_map_some, List.map_replicate]
  congr 2
  rw [List.length_take, hlen]
  omega

theorem rollupName_full {α : Type} {name : List (Option α)} {k : Nat} (h : name.length = k) :
    rollupName name k = List.replicate k (none : Option (Option α)) := by
  unfold rollupName
  rw [h, Nat.sub_self]
  simp

theorem range_map_getD_some {α : Type} (name : List (Option α)) :
    (List.range name.length).map (fun i => some (name.getD i none)) = name.map some := by
  induction name with
  | nil => rfl
  | cons a rest ih =>
    rw [List.length_cons, List.range_succ_eq_map, List.map_cons, List.map_map]
    congr 1

theorem cubeName_zero {α : Type} {name : List (Option α)} {k : Nat} (h : name.length = k) :
    cubeName name 0 k = name.map some := by
  subst h
  unfold cubeName
  rw [show (fun i => if (0 >>> i) % 2 = 0 then some (name.getD i none) else none)
      = (fun i => some (name.getD i none)) from funext (fun i => by
        simp [Nat.zero_shiftRight])]
  exact range_map_getD_some name

theorem count_false_pattern (k L : Nat) :
    (List.replicate (k - L) true ++ List.replicate L false).count false = L := by
  rw [List.count_append, List.count_replicate, List.count_replicate]
  simp

theorem keyOf_length {α : Type} (t : Table α) (ks : List String) (cells : List (Option α)) :
    (keyOf t ks cells).length = ks.length := by
  simp [keyOf]

theorem groupIndices_key_mem {α : Type} [DecidableEq α] {t : Table α} {ks : List String}
    {g : List (Option α) × List RowId} (hg : g ∈ groupIndices t ks) :
    ∃ r ∈ t.rows, g.1 = keyOf t ks r.2 := by
  have h1 : g.1 ∈ (groupIndices t ks).map Prod.fst := List.mem_map_of_mem Prod.fst hg
  rcases mem_keys_foldAdd.mp h1 with h2 | h2
  · simp at h2
  · simp only [List.map_map] at h2
    rcases List.mem_map.mp h2 with ⟨r, hr, he⟩
    exact ⟨r, hr, he.symm⟩

theorem groupIndices_key_length {α : Type} [DecidableEq α] {t : Table α} {ks : List String}
    {g : List (Option α) × List RowId} (hg : g ∈ groupIndices t ks) :
    g.1.length = ks.length := by
  obtain ⟨r, _, he⟩ := groupIndices_key_mem hg
  rw [he, keyOf_length]

theorem groupIndices_keys_nodup {α : Type} [DecidableEq α] (t : Table α) (ks : List String) :
    ((groupIndices t ks).map Prod.fst).Nodup :=
  nodup_keys_foldAdd (by simp)

theorem flatten_map_singleton {β γ : Type} (l : List β) (f : β → γ) :
    (l.map (fun x => [f x])).flatten = l.map f := by
  induction l with
  | nil => rfl
  | cons a rest ih => simp [ih]

theorem groupIndices_perm {α : Type} [DecidableEq α] (t : Table α) (ks : List String) :
    (((groupIndices t ks).map Prod.snd).flatten).Perm (t.rows.map Prod.fst) := by
  unfold groupIndices
  refine (flatten_values_foldAdd _ _).trans ?_
  simp only [List.map_nil, List.flatten_nil, List.nil_append, List.map_map]
  rw [show (Prod.snd ∘ fun r : RowId × List (Option α) => (keyOf t ks r.2, [r.1]))
      = (fun r : RowId × List (Option α) => [r.1]) from rfl]
  rw [flatten_map_singleton t.rows Prod.fst]

theorem groupIndices_disjoint {α : Type} [DecidableEq α] {t : Table α} {ks : List String}
    (h : (t.rows.map Prod.fst).Nodup) :
    List.Pairwise List.Disjoint ((groupIndices t ks).map Prod.snd) := by
  have hperm := groupIndices_perm t ks
  have hnd : (((groupIndices t ks).map Prod.snd).flatten).Nodup :=
    (hperm.nodup_iff).mpr h
  exact (List.nodup_flatten.mp hnd).2

theorem groupIndices_ne_nil {α : Type} [DecidableEq α] {t : Table α} {ks : List String}
    (h : t.rows ≠ []) : groupIndices t ks ≠ [] := by
  apply foldAdd_nil_ne_nil
  simpa using h

theorem filter_flatMap {β γ : Type} (l : List β) (f : β → List γ) (p : γ → Bool) :
    (l.flatMap f).filter p = l.flatMap (fun x => (f x).filter p) := by
  induction l with
  | nil => rfl
  | cons a rest ih => simp [List.flatMap_cons, List.filter_append, ih]

theorem flatMap_nil_fun {β γ : Type} (l : List β) :
    l.flatMap (fun _ => ([] : List γ)) = [] := by
  induction l with
  | nil => rfl
  | cons a rest ih => simp [List.flatMap_cons, ih]

theorem cube_patterns_mem {α : Type} [DecidableEq α] {t : Table α} {ks : List String}
    (hne : t.rows ≠ []) (p : List Bool) :
    p ∈ (cubeW t ks).groups.map (fun g => keyPat g.1) ↔
      ∃ c < 2 ^ ks.length, p = patFn c ks.length := by
  constructor
  · intro hp
    rcases List.mem_map.mp hp with ⟨g, hg, he⟩
    have h1 : g.1 ∈ (cubeGroups (groupIndices t ks) ks.length).map Prod.fst :=
      List.mem_map_of_mem Prod.fst hg
    rw [cubeGroups_eq] at h1
    rcases mem_keys_foldAdd.mp h1 with h2 | h2
    · simp at h2
    · rcases List.mem_map.mp h2 with ⟨j, hj, hj2⟩
      rcases List.mem_flatMap.mp hj with ⟨c, hc, hcj⟩
      rcases List.mem_map.mp hcj with ⟨o, _, hoj⟩
      refine ⟨c, List.mem_range.mp hc, ?_⟩
      rw [← he, ← hj2, ← hoj, keyPat_cubeName]
  · rintro ⟨c, hc, rfl⟩
    obtain ⟨o, ho⟩ := List.exists_mem_of_ne_nil _ (groupIndices_ne_nil hne)
    have hkey : cubeName o.1 c ks.length
        ∈ (cubeGroups (groupIndices t ks) ks.length).map Prod.fst := by
      rw [cubeGroups_eq]
      apply mem_keys_foldAdd.mpr
      refine Or.inr (List.mem_map.mpr ⟨(cubeName o.1 c ks.length, o.2), ?_, rfl⟩)
      exact List.mem_flatMap.mpr
        ⟨c, List.mem_range.mpr hc, List.mem_map.mpr ⟨o, ho, rfl⟩⟩
    rcases List.mem_map.mp hkey with ⟨g, hg, he⟩
    exact List.mem_map.mpr ⟨g, hg, by rw [he, keyPat_cubeName]⟩

theorem granCount_cube {α : Type} [DecidableEq α] (t : Table α) (ks : List String)
    (hne : t.rows ≠ []) : granCount (cubeW t ks).groups = 2 ^ ks.length := by
  unfold granCount
  have hnodup : ((List.range (2 ^ ks.length)).map (fun c => patFn c ks.length)).Nodup := by
    apply List.Nodup.map_on ?_ (List.nodup_range _)
    intro c1 h1 c2 h2 he
    have e1 := combOf_patFn (List.mem_range.mp h1)
    have e2 := combOf_patFn (List.mem_range.mp h2)
    rw [← e1, ← e2, he]
  have hperm : (((cubeW t ks).groups.map (fun g => keyPat g.1)).dedup).Perm
      ((List.range (2 ^ ks.length)).map (fun c => patFn c ks.length)) := by
    rw [List.perm_ext_iff_of_nodup (List.nodup_dedup _) hnodup]
    intro p
    rw [List.mem_dedup, cube_patterns_mem hne p]
    simp only [List.mem_map, List.mem_range]
    constructor
    · rintro ⟨c, hc, rfl⟩
      exact ⟨c, hc, rfl⟩
    · rintro ⟨c, hc, rfl⟩
      exact ⟨c, hc, rfl⟩
  rw [hperm.length_eq, List.length_map, List.length_range]

theorem rollup_patterns_mem {α : Type} [DecidableEq α] {t : Table α} {ks : List String}
    (hne : t.rows ≠ []) (p : List Bool) :
    p ∈ (rollupW t ks).groups.map (fun g => keyPat g.1) ↔
      ∃ L ≤ ks.length,
        p = List.replicate (ks.length - L) true ++ List.replicate L false := by
  constructor
  · intro hp
    rcases List.mem_map.mp hp with ⟨g, hg, he⟩
    have h1 : g.1 ∈ (rollupGroups (groupIndices t ks) ks.length).map Prod.fst :=
      List.mem_map_of_mem Prod.fst hg
    rw [rollupGroups_eq] at h1
    rcases mem_keys_foldAdd.mp h1 with h2 | h2
    · simp at h2
    · rcases List.mem_map.mp h2 with ⟨j, hj, hj2⟩
      rcases List.mem_flatMap.mp hj with ⟨L, hL, hLj⟩
      rcases List.mem_map.mp hLj with ⟨o, ho, hoj⟩
      refine ⟨L, Nat.lt_succ_iff.mp (List.mem_range.mp hL), ?_⟩
      rw [← he, ← hj2, ← hoj, keyPat_rollupName L (groupIndices_key_length ho)]
  · rintro ⟨L, hL, rfl⟩
    obtain ⟨o, ho⟩ := List.exists_mem_of_ne_nil _ (groupIndices_ne_nil hne)
    have hkey : rollupName o.1 L
        ∈ (rollupGroups (groupIndices t ks) ks.length).map Prod.fst := by
      rw [rollupGroups_eq]
      apply mem_keys_foldAdd.mpr
      refine Or.inr (List.mem_map.mpr ⟨(rollupName o.1 L, o.2), ?_, rfl⟩)
      exact List.mem_flatMap.mpr
        ⟨L, List.mem_range.mpr (Nat.lt_succ_iff.mpr hL), List.mem_map.mpr ⟨o, ho, rfl⟩⟩
    rcases List.mem_map.mp hkey with ⟨g, hg, he⟩
    exact List.mem_map.mpr
      ⟨g, hg, by rw [he, keyPat_rollupName L (groupIndices_key_length ho)]⟩

theorem granCount_rollup {α : Type} [DecidableEq α] (t : Table α) (ks : List String)
    (hne : t.rows ≠ []) : granCount (rollupW t ks).groups = ks.length + 1 := by
  unfold granCount
  have hnodup : ((List.range (ks.length + 1)).map
      (fun L => List.replicate (ks.length - L) true ++ List.replicate L false)).Nodup := by
    apply List.Nodup.map_on ?_ (List.nodup_range _)
    intro L1 _ L2 _ he
    have hc := congrArg (List.count false) he
    rw [count_false_pattern, count_false_pattern] at hc
    exact hc
  have hperm : (((rollupW t ks).groups.map (fun g => keyPat g.1)).dedup).Perm
      ((List.range (ks.length + 1)).map
        (fun L => List.replicate (ks.length - L) true ++ List.replicate L false)) := by
    rw [List.perm_ext_iff_of_nodup (List.nodup_dedup _) hnodup]
    intro p
    rw [List.mem_dedup, rollup_patterns_mem hne p]
    simp only [List.mem_map, List.mem_range, Nat.lt_succ_iff]
    constructor
    · rintro ⟨L, hL, rfl⟩
      exact ⟨L, hL, rfl⟩
    · rintro ⟨L, hL, rfl⟩
      exact ⟨L, hL, rfl⟩
  rw [hperm.length_eq, List.length_map, List.length_range]

theorem flatMap_eq_nil_of {β γ : Type} {l : List β} {f : β → List γ}
    (h : ∀ x ∈ l, f x = []) : l.flatMap f = [] := by
  induction l with
  | nil => rfl
  | cons a rest ih =>
    rw [List.flatMap_cons, h a (by simp), List.nil_append,
      ih (fun x hx => h x (by simp [hx]))]

theorem rollup_grand_lookup {α : Type} [DecidableEq α] (t : Table α) (ks : List String) :
    lookupG (rollupW t ks).groups (List.replicate ks.length none) =
      ((groupIndices t ks).map Prod.snd).flatten := by
  have hmain : (rollupW t ks).groups
      = foldAdd [] ((List.range (ks.length + 1)).flatMap
          (fun L => (groupIndices t ks).map (fun g => (rollupName g.1 L, g.2)))) :=
    rollupGroups_eq _ _
  rw [hmain, lookupG_foldAdd, lookupG_nil, List.nil_append, filter_flatMap,
    List.range_succ, List.flatMap_append]
  have h1 : ((List.range ks.length).flatMap (fun L =>
      ((groupIndices t ks).map (fun g => (rollupName g.1 L, g.2))).filter
        (fun j => decide (j.1 = List.replicate ks.length none)))) = [] := by
    apply flatMap_eq_nil_of
    intro L hL
    rw [List.filter_eq_nil_iff]
    intro j hj
    rcases List.mem_map.mp hj with ⟨o, ho, rfl⟩
    simp only [decide_eq_true_eq]
    intro heq
    have hc := congrArg (fun l => (keyPat l).count false) heq
    simp only at hc
    rw [keyPat_rollupName L (groupIndices_key_length ho), count_false_pattern,
      keyPat_replicate_none, List.count_replicate] at hc
    simp at hc
    have := List.mem_range.mp hL
    omega
  have h2 : (([ks.length] : List Nat).flatMap (fun L =>
      ((groupIndices t ks).map (fun g => (rollupName g.1 L, g.2))).filter
        (fun j => decide (j.1 = List.replicate ks.length none))))
      = (groupIndices t ks).map (fun g => (List.replicate ks.length none, g.2)) := by
    simp only [List.flatMap_cons, List.flatMap_nil, List.append_nil]
    rw [List.filter_eq_self.mpr ?_]
    · apply List.map_congr_left
      intro o ho
      rw [rollupName_full (groupIndices_key_length ho)]
    · intro j hj
      rcases List.mem_map.mp hj with ⟨o, ho, rfl⟩
      simp only [decide_eq_true_eq]
      exact rollupName_full (groupIndices_key_length ho)
  rw [h1, h2, List.nil_append, List.map_map]
  rfl

theorem subTable_rows_perm {α : Type} (t : Table α) {ids ids' : List RowId}
    (h : ids.Perm ids') : ((subTable t ids).rows).Perm ((subTable t ids').rows) :=
  h.filterMap _

theorem sumA_apply_perm (t : Table Int) {ids ids' : List RowId} (h : ids.Perm ids')
    (c : String) :
    aggApply (sumA c) (subTable t ids) = aggApply (sumA c) (subTable t ids') := by
  unfold aggApply sumA
  simp only [Expr.eval?]
  by_cases hc : c ∈ t.cols
  · rw [if_pos (show c ∈ (subTable t ids).cols from hc),
      if_pos (show c ∈ (subTable t ids').cols from hc)]
    have hrows := subTable_rows_perm t h
    have hperm2 : ((subTable t ids).rows.map
          (fun r => cellOf (subTable t ids).cols r.2 c)).Perm
        ((subTable t ids').rows.map (fun r => cellOf (subTable t ids').cols r.2 c)) :=
      hrows.map _
    simp only [Option.map_some']
    have hsum : sumOp ((subTable t ids).rows.map
          (fun r => cellOf (subTable t ids).cols r.2 c))
        = sumOp ((subTable t ids').rows.map
          (fun r => cellOf (subTable t ids').cols r.2 c)) := by
      unfold sumOp
      exact congrArg some ((hperm2.filterMap id).sum_eq)
    rw [hsum]
  · rw [if_neg (show c ∉ (subTable t ids).cols from hc),
      if_neg (show c ∉ (subTable t ids').cols from hc)]

theorem cube_full_level {α : Type} [DecidableEq α] (t : Table α) (ks : List String) :
    ((cubeW t ks).groups.filter
        (fun g => decide (keyPat g.1 = List.replicate ks.length true)))
      = (groupByW t ks).groups := by
  have hmain : (cubeW t ks).groups
      = foldAdd [] ((List.range (2 ^ ks.length)).flatMap
          (fun comb => (groupIndices t ks).map
            (fun g => (cubeName g.1 comb ks.length, g.2)))) :=
    cubeGroups_eq _ _
  have hpow : 2 ^ ks.length = (2 ^ ks.length - 1) + 1 := by
    have h0 : 0 < 2 ^ ks.length := Nat.pos_pow_of_pos ks.length (by omega)
    omega
  have hjf0eq : ((groupIndices t ks).map (fun g => (cubeName g.1 0 ks.length, g.2)))
      = (groupIndices t ks).map (fun g => (g.1.map some, g.2)) := by
    apply List.map_congr_left
    intro o ho
    rw [cubeName_zero (groupIndices_key_length ho)]
  have hfresh : foldAdd []
      ((groupIndices t ks).map (fun g => (cubeName g.1 0 ks.length, g.2)))
      = (groupIndices t ks).map (fun g => (cubeName g.1 0 ks.length, g.2)) := by
    rw [foldAdd_fresh ?_ ?_]
    · simp
    · rw [hjf0eq, List.map_map]
      rw [show (Prod.fst ∘ fun g : List (Option α) × List RowId => (g.1.map some, g.2))
          = (fun g : List (Option α) × List RowId => g.1.map some) from rfl]
      rw [show (fun g : List (Option α) × List RowId => g.1.map some)
          = (List.map some ∘ Prod.fst) from rfl]
      rw [← List.map_map]
      exact (groupIndices_keys_nodup t ks).map
        (List.map_injective_iff.mpr (Option.some_injective (Option α)))
    · intro x _
      simp
  rw [hmain, hpow, List.range_succ_eq_map, List.flatMap_cons, foldAdd_append, hfresh]
  have hneg : ∀ j ∈ (((List.range (2 ^ ks.length - 1)).map Nat.succ).flatMap
      (fun comb => (groupIndices t ks).map
        (fun g => (cubeName g.1 comb ks.length, g.2)))),
      (fun key => decide (keyPat key = List.replicate ks.length true)) j.1 = false := by
    intro j hj
    rcases List.mem_flatMap.mp hj with ⟨comb, hcomb, hcj⟩
    rcases List.mem_map.mp hcj with ⟨o, _, rfl⟩
    rcases List.mem_map.mp hcomb with ⟨c, hc, rfl⟩
    simp only [decide_eq_false_iff_not]
    rw [keyPat_cubeName]
    intro heq
    have hlt : Nat.succ c < 2 ^ ks.length := by
      have := List.mem_range.mp hc
      omega
    have h1 := combOf_patFn hlt
    rw [heq, ← patFn_comb_zero ks.length,
      combOf_patFn (Nat.pos_pow_of_pos ks.length (by omega))] at h1
    omega
  refine Eq.trans (filter_foldAdd_neg
    (fun key => decide (keyPat key = List.replicate ks.length true)) hneg) ?_
  rw [List.filter_eq_self.mpr ?_]
  · rw [hjf0eq]
    rfl
  · intro j hj
    rcases List.mem_map.mp hj with ⟨o, ho, rfl⟩
    simp only [decide_eq_true_eq]
    rw [keyPat_cubeName, patFn_comb_zero]

theorem buildKeyDict_ok {α : Type} (groups : List (List (Option (Option α)) × List RowId))
    (ks : List String) :
    ∀ (i : Nat) (d : List (String × List (Option α))), ks.Nodup →
    (∀ k ∈ ks, k ∉ d.map Prod.fst) →
    buildKeyDict groups ks i d
      = .ok (d ++ (List.enumFrom i ks).map (fun p => (p.2, keyColumn groups p.1))) := by
  induction ks with
  | nil =>
    intro i d _ _
    simp [buildKeyDict]
  | cons k rest ih =>
    intro i d hn hf
    rw [buildKeyDict, if_neg (hf k (by simp))]
    rw [ih (i + 1) (d ++ [(k, keyColumn groups i)]) (List.nodup_cons.mp hn).2 ?_]
    · simp [List.append_assoc]
    · intro x hx
      simp only [List.map_append, List.mem_append, not_or]
      refine ⟨hf x (by simp [hx]), ?_⟩
      simp only [List.map_cons, List.map_nil, List.mem_singleton]
      exact fun e => (List.nodup_cons.mp hn).1 (e ▸ hx)

theorem keyDict_fst {α : Type} (groups : List (List (Option (Option α)) × List RowId))
    (ks : List String) (i : Nat) :
    (((List.enumFrom i ks).map
        (fun p => (p.2, keyColumn groups p.1))).map Prod.fst) = ks := by
  rw [List.map_map]
  rw [show (Prod.fst ∘ fun p : Nat × String => (p.2, keyColumn groups p.1))
      = (Prod.snd : Nat × String → String) from rfl]
  exact List.enumFrom_map_snd i ks

theorem applyAggManyT_ok {α : Type} (a : AggColumn α) (df : Table α)
    (groups : List (List (Option (Option α)) × List RowId))
    (h : ∀ grp ∈ groups, (aggApply a (subTable df grp.2)).isSome) :
    applyAggManyT a df groups
      = (.ok (groups.map (fun grp => (aggApply a (subTable df grp.2)).getD none)),
         groups.map (fun _ => a.getName)) := by
  induction groups with
  | nil => rfl
  | cons g gs ih =>
    cases ho : aggApply a (subTable df g.2) with
    | none =>
      have h2 := h g (by simp)
      rw [ho] at h2
      simp at h2
    | some v =>
      simp only [applyAggManyT, ho]
      rw [ih (fun x hx => h x (by simp [hx]))]
      simp [ho, Except.map]

theorem aggColsFoldT_ok {α : Type} (df : Table α)
    (groups : List (List (Option (Option α)) × List RowId)) (cols : List (AggColumn α)) :
    ∀ d : List (String × List (Option α)),
    goodNamesB (d.map Prod.fst) cols = true →
    (∀ a ∈ cols, ∀ grp ∈ groups, (aggApply a (subTable df grp.2)).isSome) →
    aggColsFoldT df groups d cols
      = (.ok (d ++ cols.map (fun a => (a.getName,
          groups.map (fun grp => (aggApply a (subTable df grp.2)).getD none)))),
         cols.flatMap (fun a => groups.map (fun _ => a.getName))) := by
  induction cols with
  | nil =>
    intro d _ _
    simp [aggColsFoldT]
  | cons a rest ih =>
    intro d hg he
    rw [goodNamesB, Bool.and_eq_true, Bool.not_eq_true'] at hg
    have hmem : a.getName ∉ d.map Prod.fst := of_decide_eq_false hg.1
    simp only [aggColsFoldT, if_neg hmem]
    rw [applyAggManyT_ok a df groups (he a (by simp))]
    have hrec := ih (d ++ [(a.getName,
        groups.map (fun grp => (aggApply a (subTable df grp.2)).getD none))])
      (by simpa using hg.2) (fun x hx => he x (by simp [hx]))
    simp only []
    rw [hrec]
    simp [List.append_assoc]

theorem aggColsFoldT_err {α : Type} (df : Table α)
    (groups : List (List (Option (Option α)) × List RowId)) (cols : List (AggColumn α)) :
    ∀ d : List (String × List (Option α)),
    goodNamesB (d.map Prod.fst) cols = false →
    (∀ a ∈ cols, ∀ grp ∈ groups, (aggApply a (subTable df grp.2)).isSome) →
    (aggColsFoldT df groups d cols).1 = .error dupNameMsg := by
  induction cols with
  | nil =>
    intro d hg _
    rw [goodNamesB] at hg
    cases hg
  | cons a rest ih =>
    intro d hg he
    by_cases hmem : a.getName ∈ d.map Prod.fst
    · simp only [aggColsFoldT, if_pos hmem]
    · simp only [aggColsFoldT, if_neg hmem]
      rw [applyAggManyT_ok a df groups (he a (by simp))]
      rw [goodNamesB] at hg
      simp [hmem] at hg
      have h2 := ih (d ++ [(a.getName,
          groups.map (fun grp => (aggApply a (subTable df grp.2)).getD none))])
        (by simpa using hg) (fun x hx => he x (by simp [hx]))
      simpa using h2

theorem set_append_len {β : Type} (l : List β) (u v : β) :
    (l ++ [u]).set l.length v = l ++ [v] := by
  induction l with
  | nil => rfl
  | cons a rest ih =>
    simp only [List.cons_append, List.length_cons, List.set_cons_succ]
    rw [ih]

theorem getD_append_len {β : Type} (l : List β) (u d : β) :
    (l ++ [u]).getD l.length d = u := by
  induction l with
  | nil => rfl
  | cons a rest ih =>
    simp only [List.cons_append, List.length_cons]
    exact ih

theorem zip_self_map {β γ : Type} (l : List β) (f : β → γ) :
    l.zip (l.map f) = l.map (fun x => (x, f x)) := by
  induction l with
  | nil => rfl
  | cons a rest ih => simp [ih]

theorem restrictCols_ok_cols {α : Type} {t : Table α} {ns : List String} {T : Table α}
    (h : restrictCols t ns = .ok T) : T.cols = ns := by
  unfold restrictCols at h
  split at h
  · simp only [Except.ok.injEq] at h
    rw [← h]
  · cases h

theorem selLoop_names {α μ : Type} [Inhabited μ] (md : List (String × μ)) :
    ∀ (cols : List (SelCol α μ)) (df : Table α)
      (r : Table α × List String ×
        List (String × (Table α → μ → List String → Table α))),
    selLoop md df cols = .ok r → r.2.1 = cols.map selCName := by
  intro cols
  induction cols with
  | nil =>
    intro df r h
    simp only [selLoop, Except.ok.injEq] at h
    rw [← h]
    rfl
  | cons c rest ih =>
    intro df r h
    cases c with
    | ord e =>
      cases he : e.eval? df with
      | none =>
        simp [selLoop, he] at h
      | some vs =>
        simp only [selLoop, he] at h
        cases hr : selLoop md (assignCol df e.name vs) rest with
        | error err =>
          simp [hr, Except.map] at h
        | ok r' =>
          rw [hr] at h
          simp only [Except.map, Except.ok.injEq] at h
          rw [← h]
          simp only [List.map_cons, selCName]
          rw [ih _ r' hr]
    | special s =>
      cases hr : selLoop md
          (assignCol df s.name (s.app df (lookupMd md s.name))) rest with
      | error err =>
        simp [selLoop, hr, Except.map] at h
      | ok r' =>
        simp only [selLoop, hr, Except.map, Except.ok.injEq] at h
        rw [← h]
        simp only [List.map_cons, selCName]
        rw [ih _ r' hr]

theorem sortAsc_of_sorted : ∀ (l : List Int), List.Chain' (· ≤ ·) l → sortAsc l = l
  | [], _ => rfl
  | a :: rest, h => by
    rw [sortAsc, sortAsc_of_sorted rest h.tail]
    cases rest with
    | nil => rfl
    | cons b rest' =>
      have hab : a ≤ b := (List.chain'_cons.mp h).1
      rw [insertAsc, if_pos hab]

/-- C5: for every table and key set, the row-id groups produced by
`groupBy` form a partition of the table's rows: pairwise disjoint, and
their concatenation is a permutation of (so their union equals) the set of
all row ids of the source table. -/
theorem c5_groupBy_partition (t : Table Int) (ks : List String) (h : t.WF) :
    List.Pairwise List.Disjoint ((groupByW t ks).groups.map Prod.snd)
    ∧ (((groupByW t ks).groups.map Prod.snd).flatten).Perm (t.rows.map Prod.fst) := by
  have hsnd : (groupByW t ks).groups.map Prod.snd = (groupIndices t ks).map Prod.snd := by
    unfold groupByW
    rw [List.map_map]
    rfl
  rw [hsnd]
  exact ⟨groupIndices_disjoint h.2.1, groupIndices_perm t ks⟩

/-- C5 witness: the partition property evaluated on the scenario table
grouped by `id`. -/
theorem c5_witness :
    List.Pairwise List.Disjoint ((groupByW t2c ["id"]).groups.map Prod.snd)
    ∧ (((groupByW t2c ["id"]).groups.map Prod.snd).flatten).Perm [0, 1, 2] :=
  c5_groupBy_partition t2c ["id"]
    (show _ ∧ _ ∧ _ from ⟨by decide, by decide, by decide⟩)

/-- C7: `lead(col, n)` returns the series value of the partition row at
position `pos + n` when that position is within bounds and null otherwise;
`lag(col, n)` returns the value at `pos - n` when `pos - n ≥ 0` and null
otherwise. -/
theorem c7_lead_lag (s : RowId → Option Int) (grp : List RowId) (pos n : Nat) :
    (∀ h : pos + n < grp.length, leadOp s grp pos n = s (grp.get ⟨pos + n, h⟩))
    ∧ (grp.length ≤ pos + n → leadOp s grp pos n = none)
    ∧ (∀ (h : pos < grp.length), n ≤ pos →
        lagOp s grp pos n = s (grp.get ⟨pos - n, lt_of_le_of_lt (Nat.sub_le pos n) h⟩))
    ∧ (pos < n → lagOp s grp pos n = none) := by
  refine ⟨?_, ?_, ?_, ?_⟩
  · intro h
    unfold leadOp
    rw [if_pos h]
    congr 1
    rw [List.getD_eq_getElem _ _ h]
    rfl
  · intro h
    unfold leadOp
    rw [if_neg (by omega)]
  · intro h hn
    unfold lagOp
    rw [if_pos hn]
    congr 1
    rw [List.getD_eq_getElem _ _ (lt_of_le_of_lt (Nat.sub_le pos n) h)]
    rfl
  · intro h
    unfold lagOp
    rw [if_neg (by omega)]

/-- C7 witness: lead and lag evaluated on the three-row partition
`[3, 4, 5]` with the series `id + 5`. -/
theorem c7_witness :
    leadOp sWin [3, 4, 5] 0 1 = some 9 ∧ leadOp sWin [3, 4, 5] 2 1 = none
    ∧ lagOp sWin [3, 4, 5] 1 1 = some 8 ∧ lagOp sWin [3, 4, 5] 0 1 = none := by
  refine ⟨?_, ?_, ?_, ?_⟩
  · exact ((c7_lead_lag sWin [3, 4, 5] 0 1).1 (by decide)).trans rfl
  · exact (c7_lead_lag sWin [3, 4, 5] 2 1).2.1 (by decide)
  · exact ((c7_lead_lag sWin [3, 4, 5] 1 1).2.2.1 (by decide) (by decide)).trans rfl
  · exact (c7_lead_lag sWin [3, 4, 5] 0 1).2.2.2 (by decide)

/-- C8 (amended): `rank()` returns the index of the first occurrence of
the row's value in the partition's value sequence taken in partition
order; when the partition's values are sorted ascending this equals the
0-based rank among the values sorted ascending with ties broken by first
occurrence, as the claim states. -/
theorem c8_rank_amended (s : RowId → Int) (grp : List RowId) (pos : Nat) :
    rankOp s grp pos = (grp.map s).indexOf (s (grp.getD pos 0))
    ∧ (List.Chain' (· ≤ ·) (grp.map s) →
        rankOp s grp pos = rankSpec (s (grp.getD pos 0)) (grp.map s)) := by
  refine ⟨rfl, ?_⟩
  intro hs
  unfold rankSpec
  rw [sortAsc_of_sorted _ hs]
  rfl

/-- C8 witness: on the ascending partition `[4, 5, 6]` with the identity
series, the code's rank agrees with the sorted-rank reading. -/
theorem c8_witness :
    rankOp sAsc [4, 5, 6] 1 = ([4, 5, 6].map sAsc).indexOf (sAsc ([4, 5, 6].getD 1 0))
    ∧ rankOp sAsc [4, 5, 6] 1 = rankSpec (sAsc ([4, 5, 6].getD 1 0)) ([4, 5, 6].map sAsc) := by
  have h := c8_rank_amended sAsc [4, 5, 6] 1
  exact ⟨h.1, h.2 ((List.chain'_iff_pairwise).mpr (by decide))⟩

/-- C8 counterexample: on a partition whose values are not ascending
(values 3 then 1), `rank()` returns 0 for the first row, not the rank 1 of
its value among the values sorted ascending. -/
theorem c8_counterexample :
    rankOp sRank [0, 1] 0 ≠ rankSpec (sRank ([0, 1].getD 0 0)) ([0, 1].map sRank) := by
  decide

/-- C10: the `count` aggregate applied to a group returns the number of
rows in the group, regardless of the values (including nulls) in the
column it was built from. -/
theorem c10_count_rows (t : Table Int) (c : String) (h : c ∈ t.cols) :
    aggApply (countA c) t = some (some (t.rows.length : Int)) := by
  unfold aggApply countA
  simp only [Expr.eval?]
  rw [if_pos h]
  simp only [Option.map_some']
  unfold countOp
  rw [List.length_map]

/-- C10 witness: counting a three-row group whose column holds two nulls
still gives 3. -/
theorem c10_witness : aggApply (countA "v") t10c = some (some 3) :=
  (c10_count_rows t10c "v" (by decide)).trans rfl

/-- C3 (amended): for every table with at least one row and non-empty key
list of length `k`, rollup produces exactly `k + 1` distinct grouping
granularities; the grand-total level's row ids are a permutation of all
row ids, so aggregating it with an order-insensitive aggregate such as
`sum` equals aggregating the whole table directly (order-sensitive
aggregates such as `last` can differ, and the empty table yields no
granularity at all). -/
theorem c3_rollup_amended (t : Table Int) (ks : List String) (_hks : ks ≠ [])
    (hrows : t.rows ≠ []) :
    granCount (rollupW t ks).groups = ks.length + 1
    ∧ (lookupG (rollupW t ks).groups (List.replicate ks.length none)).Perm
        (t.rows.map Prod.fst)
    ∧ ∀ c : String,
        aggApply (sumA c) (subTable t (lookupG (rollupW t ks).groups
          (List.replicate ks.length none)))
        = aggApply (sumA c) (subTable t (t.rows.map Prod.fst)) := by
  have hperm : (lookupG (rollupW t ks).groups (List.replicate ks.length none)).Perm
      (t.rows.map Prod.fst) := by
    rw [rollup_grand_lookup]
    exact groupIndices_perm t ks
  exact ⟨granCount_rollup t ks hrows, hperm, fun c => sumA_apply_perm t hperm c⟩

/-- C3 witness: rollup over `id` on the scenario table has 2 granularities
and its grand total sums `v` exactly as the whole table does. -/
theorem c3_witness :
    granCount (rollupW t2c ["id"]).groups = 2
    ∧ (lookupG (rollupW t2c ["id"]).groups [none]).Perm [0, 1, 2]
    ∧ aggApply (sumA "v") (subTable t2c (lookupG (rollupW t2c ["id"]).groups [none]))
        = aggApply (sumA "v") (subTable t2c [0, 1, 2]) := by
  have h := c3_rollup_amended t2c ["id"] (by decide) (by decide)
  exact ⟨h.1, h.2.1, h.2.2 "v"⟩

/-- C3 counterexample: on the empty table rollup yields 0 granularities,
not `k + 1`; and on `{id:[1,2,1], v:[10,20,30]}` aggregating the rollup
grand-total level with the order-sensitive `last` gives 20 while
aggregating the whole table directly gives 30. -/
theorem c3_counterexample :
    granCount (rollupW tEmptyc ["a"]).groups ≠ 1 + 1
    ∧ aggApply (lastA "v") (subTable t3c (lookupG (rollupW t3c ["id"]).groups
        (List.replicate 1 none)))
      ≠ aggApply (lastA "v") (subTable t3c (t3c.rows.map Prod.fst)) := by
  constructor
  · decide
  · decide

/-- C4 (amended): for every table with at least one row, cube over `k`
keys produces exactly `2 ^ k` distinct grouping granularities, its key
patterns are a superset of rollup's levels, and its fully-specified level
equals the plain `groupBy` over the same keys (the empty table yields no
granularity at all). -/
theorem c4_cube_amended (t : Table Int) (ks : List String) (hrows : t.rows ≠ []) :
    granCount (cubeW t ks).groups = 2 ^ ks.length
    ∧ (∀ p ∈ (rollupW t ks).groups.map (fun g => keyPat g.1),
        p ∈ (cubeW t ks).groups.map (fun g => keyPat g.1))
    ∧ ((cubeW t ks).groups.filter
        (fun g => decide (keyPat g.1 = List.replicate ks.length true)))
      = (groupByW t ks).groups := by
  refine ⟨granCount_cube t ks hrows, ?_, cube_full_level t ks⟩
  intro p hp
  rcases (rollup_patterns_mem hrows p).mp hp with ⟨L, hL, rfl⟩
  apply (cube_patterns_mem hrows _).mpr
  have hplen : (List.replicate (ks.length - L) true
      ++ List.replicate L false).length = ks.length := by
    simp only [List.length_append, List.length_replicate]
    omega
  refine ⟨combOf (List.replicate (ks.length - L) true ++ List.replicate L false),
    ?_, ?_⟩
  · have h := combOf_lt (List.replicate (ks.length - L) true ++ List.replicate L false)
    rw [hplen] at h
    exact h
  · have h := patFn_combOf (List.replicate (ks.length - L) true ++ List.replicate L false)
    rw [hplen] at h
    exact h.symm

/-- C4 witness: cube over `id` on the scenario table has `2 ^ 1`
granularities, contains rollup's grand-total pattern, and its
fully-specified level is the plain groupBy. -/
theorem c4_witness :
    granCount (cubeW t2c ["id"]).groups = 2
    ∧ [false] ∈ (cubeW t2c ["id"]).groups.map (fun g => keyPat g.1)
    ∧ ((cubeW t2c ["id"]).groups.filter
        (fun g => decide (keyPat g.1 = List.replicate 1 true)))
      = (groupByW t2c ["id"]).groups := by
  have h := c4_cube_amended t2c ["id"] (by decide)
  exact ⟨h.1, h.2.1 [false] (by decide), h.2.2⟩

/-- C4 counterexample: on the empty table cube yields 0 granularities,
not `2 ^ k`. -/
theorem c4_counterexample : granCount (cubeW tEmptyc ["a"]).groups ≠ 2 ^ 1 := by
  decide

/-- C2: `agg` builds an output table whose first columns are the key
columns, one value per group taken by position from the group's key
tuple, followed by one column per aggregate expression holding that
aggregate's result per group, groups iterated in the insertion order of
the group mapping; in particular on `{id:[1,1,2], v:[10,20,5]}`,
`groupBy("id").agg(sum(v))` yields `{id:[1,2], SUM(v):[30,5]}` with groups
in first-encounter order of `id`. -/
theorem c2_agg_structure :
    (∀ (g : GroupedTable Int) (cols : List (AggColumn Int)),
      g.keys.Nodup →
      goodNamesB g.keys cols = true →
      (∀ a ∈ cols, ∀ grp ∈ g.groups, (aggApply a (subTable g.df grp.2)).isSome) →
      agg g cols = .ok (tableOfDict g.groups.length
        ((List.enumFrom 0 g.keys).map (fun p => (p.2, keyColumn g.groups p.1))
          ++ cols.map (fun a => (a.getName,
            g.groups.map (fun grp => (aggApply a (subTable g.df grp.2)).getD none))))))
    ∧ agg (groupByW t2c ["id"]) [sumA "v"]
        = .ok ⟨["id", "SUM(v)"], [(0, [some 1, some 30]), (1, [some 2, some 5])]⟩ := by
  constructor
  · intro g cols hk hg he
    have hb := buildKeyDict_ok g.groups g.keys 0 [] hk (by simp)
    rw [List.nil_append] at hb
    have hf := aggColsFoldT_ok g.df g.groups cols
      ((List.enumFrom 0 g.keys).map (fun p => (p.2, keyColumn g.groups p.1)))
      (by rw [keyDict_fst]; exact hg) he
    unfold agg aggT
    simp only [hb, hf]
  · rfl

/-- C2 witness: the concrete scenario, obtained from the structure
theorem at the scenario grouping. -/
theorem c2_witness :
    agg (groupByW t2c ["id"]) [sumA "v"]
      = .ok ⟨["id", "SUM(v)"], [(0, [some 1, some 30]), (1, [some 2, some 5])]⟩ :=
  (c2_agg_structure.1 (groupByW t2c ["id"]) [sumA "v"] (by decide) (by decide)
    (by decide)).trans rfl

/-- C9 (amended): a duplicate aggregate output name, or an aggregate name
colliding with a grouping-key name, makes `agg` fail with the
`DuplicateName` assertion; the check for each aggregate runs before that
aggregate's own evaluation (a first-position collision evaluates
nothing), but aggregates earlier in the list have already been evaluated
by the time a later collision is detected, so the call is not
all-or-nothing. -/
theorem c9_agg_dup_amended (g : GroupedTable Int) (cols : List (AggColumn Int))
    (hk : g.keys.Nodup)
    (he : ∀ a ∈ cols, ∀ grp ∈ g.groups, (aggApply a (subTable g.df grp.2)).isSome) :
    (goodNamesB g.keys cols = false → agg g cols = .error dupNameMsg)
    ∧ (∀ (a : AggColumn Int) (rest : List (AggColumn Int)),
        cols = a :: rest → a.getName ∈ g.keys → aggT g cols = (.error dupNameMsg, [])) := by
  have hb := buildKeyDict_ok g.groups g.keys 0 [] hk (by simp)
  rw [List.nil_append] at hb
  constructor
  · intro hbad
    have herr := aggColsFoldT_err g.df g.groups cols
      ((List.enumFrom 0 g.keys).map (fun p => (p.2, keyColumn g.groups p.1)))
      (by rw [keyDict_fst]; exact hbad) he
    rcases hp : aggColsFoldT g.df g.groups
        ((List.enumFrom 0 g.keys).map (fun p => (p.2, keyColumn g.groups p.1))) cols
      with ⟨r1, tr⟩
    rw [hp] at herr
    simp only at herr
    unfold agg aggT
    simp only [hb, hp, herr]
  · intro a rest hc hmem
    subst hc
    have hm2 : a.getName ∈ (((List.enumFrom 0 g.keys).map
        (fun p => (p.2, keyColumn g.groups p.1))).map Prod.fst) := by
      rw [keyDict_fst]
      exact hmem
    unfold aggT
    simp only [hb, aggColsFoldT, if_pos hm2]

/-- C9 witness: two aggregates sharing the name `SUM(v)` make `agg` fail
with the `DuplicateName` assertion message. -/
theorem c9_witness :
    agg (groupByW t2c ["id"]) [sumA "v", sumA "v"] = .error dupNameMsg :=
  (c9_agg_dup_amended (groupByW t2c ["id"]) [sumA "v", sumA "v"] (by decide)
    (by decide)).1 (by decide)

/-- C9 counterexample: with two same-named aggregates the call errors, but
the evaluation trace shows the first aggregate was already applied to both
groups before the duplicate check fired — the check is not performed
before any aggregate evaluation proceeds. -/
theorem c9_counterexample :
    aggT (groupByW t2c ["id"]) [sumA "v", sumA "v"]
      = (.error dupNameMsg, ["SUM(v)", "SUM(v)"]) := rfl

/-- C6 (amended): `select` runs preprocess for the special columns first
(against the original table), then evaluates the selected columns in
caller order against the progressively extended table — so ordinary
expressions can reference columns produced earlier in the same selection
list, unlike the claim's "all ordinary expressions first against the
original table" — then one combined postprocess pass; whenever `select`
succeeds, the output table's column order matches the caller-specified
selection order regardless of which columns were special. -/
theorem c6_select_order_amended {μ : Type} [Inhabited μ] (t : Table Int)
    (cols : List (SelCol Int μ)) (T : Table Int) (h : select t cols = .ok T) :
    T.cols = cols.map selCName := by
  simp only [select] at h
  cases hs : selLoop (buildMd t cols) t cols with
  | error e =>
    rw [hs] at h
    cases h
  | ok r =>
    obtain ⟨df, names, specials⟩ := r
    rw [hs] at h
    have h2 := restrictCols_ok_cols h
    have h3 := selLoop_names (buildMd t cols) cols t (df, names, specials) hs
    exact h2.trans h3

/-- C6 witness: a selection mixing two ordinary expressions and one
special column succeeds with the caller-specified column order. -/
theorem c6_witness :
    (⟨["y", "y", "s"], [(0, [some 1, some 1, none])]⟩ : Table Int).cols
      = cols6c.map selCName :=
  c6_select_order_amended t6c cols6c
    ⟨["y", "y", "s"], [(0, [some 1, some 1, none])]⟩ rfl

/-- C6 counterexample: on `{x:[1]}` with the selection
`[x.alias("y"), col("y"), special]`, the code's `select` succeeds (the
second expression sees the `y` produced by the first), while the claim's
described procedure — ordinary expressions evaluated first against the
original table — fails with `UnknownColumn`: the two disagree. -/
theorem c6_counterexample : select t6c cols6c ≠ selectSpec t6c cols6c := by
  intro h
  rw [show select t6c cols6c = Except.ok
      (⟨["y", "y", "s"], [(0, [some 1, some 1, none])]⟩ : Table Int) from rfl,
    show selectSpec t6c cols6c = Except.error "UnknownColumn" from rfl] at h
  cases h

/-- C1 (amended): `select` does not detect duplicate output names: on any
two-column table `{x, z}`, `select(col("x").alias("y"),
col("z").alias("y"))` succeeds instead of failing with `DuplicateName`;
the later expression silently overwrites the earlier one under the shared
name, and the output carries the name `y` twice with both copies holding
the last column's (`z`'s) values. -/
theorem c1_select_dup_amended (rs : List (RowId × List (Option Int)))
    (hlen : ∀ r ∈ rs, r.2.length = 2) :
    select (⟨["x", "z"], rs⟩ : Table Int)
        ([.ord (.aliasE (.colRef "x") "y"), .ord (.aliasE (.colRef "z") "y")]
          : List (SelCol Int Unit))
      = .ok ⟨["y", "y"],
          rs.map (fun r => (r.1, [r.2.getD 1 none, r.2.getD 1 none]))⟩ := by
  have heval1 : Expr.eval? (Expr.aliasE (Expr.colRef "x") "y")
      (⟨["x", "z"], rs⟩ : Table Int)
      = some (rs.map (fun r => r.2.getD 0 none)) := rfl
  have hdf1 : assignCol (⟨["x", "z"], rs⟩ : Table Int) "y"
      (rs.map (fun r => r.2.getD 0 none))
      = ⟨["x", "z", "y"], rs.map (fun r => (r.1, r.2 ++ [r.2.getD 0 none]))⟩ := by
    unfold assignCol
    rw [if_neg (show ¬("y" ∈ (["x", "z"] : List String)) by decide)]
    congr 1
    dsimp only
    rw [zip_self_map, List.map_map]
    rfl
  have heval2 : Expr.eval? (Expr.aliasE (Expr.colRef "z") "y")
      (⟨["x", "z", "y"],
        rs.map (fun r => (r.1, r.2 ++ [r.2.getD 0 none]))⟩ : Table Int)
      = some (rs.map (fun r => r.2.getD 1 none)) := by
    show Expr.eval? (Expr.colRef "z") _ = _
    simp only [Expr.eval?]
    rw [if_pos (show "z" ∈ (["x", "z", "y"] : List String) by decide)]
    refine congrArg some ?_
    dsimp only
    rw [List.map_map]
    apply List.map_congr_left
    intro r hr
    show (r.2 ++ [r.2.getD 0 none]).getD 1 none = r.2.getD 1 none
    rw [List.getD_append]
    rw [hlen r hr]
    omega
  have hdf2 : assignCol
      (⟨["x", "z", "y"],
        rs.map (fun r => (r.1, r.2 ++ [r.2.getD 0 none]))⟩ : Table Int)
      "y" (rs.map (fun r => r.2.getD 1 none))
      = ⟨["x", "z", "y"], rs.map (fun r => (r.1, r.2 ++ [r.2.getD 1 none]))⟩ := by
    unfold assignCol
    rw [if_pos (show "y" ∈ (["x", "z", "y"] : List String) by decide)]
    congr 1
    dsimp only
    rw [List.zip_map', List.map_map]
    apply List.map_congr_left
    intro r hr
    show (r.1, (r.2 ++ [r.2.getD 0 none]).set 2 (r.2.getD 1 none))
        = (r.1, r.2 ++ [r.2.getD 1 none])
    have hset := set_append_len r.2 (r.2.getD 0 none) (r.2.getD 1 none)
    rw [hlen r hr] at hset
    rw [hset]
  have hres : restrictCols
      (⟨["x", "z", "y"],
        rs.map (fun r => (r.1, r.2 ++ [r.2.getD 1 none]))⟩ : Table Int)
      ["y", "y"]
      = .ok ⟨["y", "y"],
          rs.map (fun r => (r.1, [r.2.getD 1 none, r.2.getD 1 none]))⟩ := by
    unfold restrictCols
    rw [if_pos (show (["y", "y"].all fun n =>
      decide (n ∈ (["x", "z", "y"] : List String))) = true by decide)]
    refine congrArg Except.ok ?_
    congr 1
    dsimp only
    rw [List.map_map]
    apply List.map_congr_left
    intro r hr
    show (r.1, [(r.2 ++ [r.2.getD 1 none]).getD 2 none,
        (r.2 ++ [r.2.getD 1 none]).getD 2 none])
      = (r.1, [r.2.getD 1 none, r.2.getD 1 none])
    have hg := getD_append_len r.2 (r.2.getD 1 none) none
    rw [hlen r hr] at hg
    rw [hg]
  have hmd : buildMd (⟨["x", "z"], rs⟩ : Table Int)
      ([.ord (.aliasE (.colRef "x") "y"), .ord (.aliasE (.colRef "z") "y")]
        : List (SelCol Int Unit)) = [] := rfl
  have hchain : selLoop ([] : List (String × Unit)) (⟨["x", "z"], rs⟩ : Table Int)
      [.ord (.aliasE (.colRef "x") "y"), .ord (.aliasE (.colRef "z") "y")]
      = .ok (⟨["x", "z", "y"],
          rs.map (fun r => (r.1, r.2 ++ [r.2.getD 1 none]))⟩, ["y", "y"], []) := by
    simp only [selLoop, heval1, Expr.name]
    rw [hdf1]
    simp only [selLoop, heval2, Expr.name]
    rw [hdf2]
    simp only [selLoop, Except.map]
  simp only [select, hmd]
  rw [hchain]
  exact hres

/-- C1 witness: with rows `x = 5, z = 7`, the duplicate-alias selection
succeeds and both `y` columns hold 7. -/
theorem c1_witness :
    select (⟨["x", "z"], [(0, [some 5, some 7])]⟩ : Table Int)
        ([.ord (.aliasE (.colRef "x") "y"), .ord (.aliasE (.colRef "z") "y")]
          : List (SelCol Int Unit))
      = .ok ⟨["y", "y"], [(0, [some 7, some 7])]⟩ :=
  (c1_select_dup_amended [(0, [some 5, some 7])] (by decide)).trans rfl

/-- C1 counterexample: on the table `{x:[1], z:[2]}`,
`select(col("x").alias("y"), col("z").alias("y"))` returns a table (no
`DuplicateName` failure) whose duplicated `y` columns both hold the last
column's value 2. -/
theorem c1_counterexample :
    select t1c cols1c = .ok ⟨["y", "y"], [(0, [some 2, some 2])]⟩ := rfl

end Spanda
